import Mathlib

/-!
Verification of the silhouette-extraction core of `scripts/generate_icons.py`
(the flood-fill based interior/exterior classification inside
`create_tray_icon`, lines 120-166).

The embedding is shallow: a raster is a total function from integer
coordinates to intensities (only the cells inside the `w × h` rectangle are
meaningful), the thresholding `canvas.point(lambda p: 255 if p > 30 else 0)`
becomes `stroke_mask`, the border seeding loops become `seeds`, the
`while queue:` BFS loop becomes the fuel-indexed function `bfs` whose loop
body is `step`, and the finalization
`fill_canvas.point(lambda p: 0 if p == 128 else 255)` becomes `alpha_mask`.
The fuel passed by `flood_fill` is proved sufficient for the queue to drain,
so `flood_fill` computes exactly what the unbounded Python loop computes.
-/

namespace Thoth

/-- A pixel coordinate `(x, y)`.  The Python queue stores plain integer
pairs, and the loop pushes neighbours such as `(cx - 1, cy)` without a
bounds check, so coordinates may leave the raster and must be integers. -/
abbrev Cell := Int × Int

/-- The in-bounds test of the loop, `not (cx < 0 or cx >= w or cy < 0 or cy >= h)`. -/
abbrev inB (w h : Nat) (c : Cell) : Prop :=
  0 ≤ c.1 ∧ c.1 < (w : Int) ∧ 0 ≤ c.2 ∧ c.2 < (h : Int)

/-- A cell lies on the seeded border: row 0, row `h-1`, column 0 or column `w-1`. -/
abbrev onBorder (w h : Nat) (c : Cell) : Prop :=
  c.2 = 0 ∨ c.2 = (h : Int) - 1 ∨ c.1 = 0 ∨ c.1 = (w : Int) - 1

/-- Step 2 of `create_tray_icon`:
`stroke_mask = canvas.point(lambda p: 255 if p > 30 else 0)`,
generalised over the cutoff constant (the script uses 30). -/
def stroke_mask (img : Cell → Nat) (cutoff : Nat) (c : Cell) : Nat :=
  if img c > cutoff then 255 else 0

/-- The four neighbours pushed by the loop body, in push order:
`(cx + 1, cy)`, `(cx - 1, cy)`, `(cx, cy + 1)`, `(cx, cy - 1)`. -/
def nbrs (c : Cell) : List Cell :=
  [(c.1 + 1, c.2), (c.1 - 1, c.2), (c.1, c.2 + 1), (c.1, c.2 - 1)]

/-- 4-connected adjacency: `d` is one of the four neighbours of `c`. -/
abbrev Adj (c d : Cell) : Prop := d ∈ nbrs c

/-- The mutable state of the flood-fill loop: the `fill_canvas` pixel
buffer, the `visited` set (kept as a list) and the work `queue` (deque,
popped at the head, appended at the tail). -/
structure FloodState where
  pixels : Cell → Nat
  visited : List Cell
  queue : List Cell

/-- The seeding loops of `create_tray_icon` (lines 137-146): every border
cell whose pixel is 0 is appended to the queue, first `(i, 0)` and
`(i, h-1)` for each column `i`, then `(0, j)` and `(w-1, j)` for each
row `j`.  This is the loops' result whenever all their border pixel reads
succeed, which holds exactly for a non-empty raster and for the 0×0
raster (no reads at all); a raster with exactly one zero dimension makes
a read fail instead — that failing case is modelled separately by
`create_tray_icon_total` below and never reaches this definition. -/
def seeds (pix : Cell → Nat) (w h : Nat) : List Cell :=
  ((List.range w).flatMap fun i =>
    (if pix ((i : Int), 0) = 0 then [((i : Int), (0 : Int))] else []) ++
    (if pix ((i : Int), (h : Int) - 1) = 0 then [((i : Int), (h : Int) - 1)] else [])) ++
  ((List.range h).flatMap fun j =>
    (if pix (0, (j : Int)) = 0 then [((0 : Int), (j : Int))] else []) ++
    (if pix ((w : Int) - 1, (j : Int)) = 0 then [((w : Int) - 1, (j : Int))] else []))

/-- One iteration of the `while queue:` body (lines 149-162), given the
popped cell `c` and the remaining queue `rest`: skip if already visited,
skip if out of bounds, skip if the pixel is non-zero (a stroke, or already
marked), otherwise record the visit, write the exterior marker 128 into
the pixel buffer and push the four neighbours. -/
def step (w h : Nat) (c : Cell) (rest : List Cell) (s : FloodState) : FloodState :=
  if c ∈ s.visited then { s with queue := rest }
  else if c.1 < 0 ∨ (w : Int) ≤ c.1 ∨ c.2 < 0 ∨ (h : Int) ≤ c.2 then { s with queue := rest }
  else if s.pixels c ≠ 0 then { s with queue := rest }
  else { pixels := fun d => if d = c then 128 else s.pixels d,
         visited := c :: s.visited,
         queue := rest ++ nbrs c }

/-- The BFS loop, indexed by fuel.  `flood_fill` below supplies enough fuel
for the queue to drain, which `bfs_queue_eq_nil` proves, so this computes
the same final state as the unbounded Python loop. -/
def bfs (w h : Nat) : Nat → FloodState → FloodState
  | 0, s => s
  | n + 1, s =>
    match s.queue with
    | [] => s
    | c :: rest => bfs w h n (step w h c rest s)

theorem bfs_zero (w h : Nat) (s : FloodState) : bfs w h 0 s = s := rfl

theorem bfs_succ_nil (w h n : Nat) (s : FloodState) (hq : s.queue = []) :
    bfs w h (n + 1) s = s := by
  cases s with
  | mk pix vis q =>
    change q = [] at hq
    subst hq
    rfl

theorem bfs_succ_cons (w h n : Nat) (s : FloodState) (c : Cell) (rest : List Cell)
    (hq : s.queue = c :: rest) :
    bfs w h (n + 1) s = bfs w h n (step w h c rest s) := by
  cases s with
  | mk pix vis q =>
    change q = c :: rest at hq
    subst hq
    rfl

/-- A pre-loop state over pixel buffer `m` with an arbitrary seed queue
`q`: nothing visited yet. -/
def init_with (m : Cell → Nat) (q : List Cell) : FloodState :=
  { pixels := m, visited := [], queue := q }

/-- The state just before the loop: the pixel buffer is the (copied)
stroke mask, nothing is visited, and the queue holds the border seeds. -/
def init_state (w h : Nat) (img : Cell → Nat) (cutoff : Nat) : FloodState :=
  { pixels := stroke_mask img cutoff
    visited := []
    queue := seeds (stroke_mask img cutoff) w h }

/-- The whole flood-fill phase.  The fuel `|queue| + 4·w·h` is an upper
bound on the number of loop iterations: each visit pushes four cells and
there are at most `w·h` visits. -/
def flood_fill (w h : Nat) (img : Cell → Nat) (cutoff : Nat) : FloodState :=
  bfs w h ((init_state w h img cutoff).queue.length + 4 * (w * h))
    (init_state w h img cutoff)

/-- Step 4 of `create_tray_icon`:
`alpha_mask = fill_canvas.point(lambda p: 0 if p == 128 else 255)`. -/
def alpha_mask (w h : Nat) (img : Cell → Nat) (cutoff : Nat) (c : Cell) : Nat :=
  if (flood_fill w h img cutoff).pixels c = 128 then 0 else 255

/-- The in-bounds cells as a finite set. -/
def boundCells (w h : Nat) : Finset Cell :=
  Finset.Ico (0 : Int) (w : Int) ×ˢ Finset.Ico (0 : Int) (h : Int)

/-- Number of in-bounds cells not yet visited; the decreasing part of the
loop measure. -/
def unvisited (w h : Nat) (s : FloodState) : Nat :=
  ((boundCells w h).filter (fun c => c ∉ s.visited)).card

/-- Background cells 4-connected to the raster border: the cells the spec
calls `EXTERIOR`.  `Reach` grows from a background border cell through
4-adjacent in-bounds background cells; `STROKE` cells (`m c ≠ 0`) are
never reachable. -/
inductive Reach (w h : Nat) (m : Cell → Nat) : Cell → Prop
  | border {c : Cell} : inB w h c → onBorder w h c → m c = 0 → Reach w h m c
  | step {c d : Cell} : Reach w h m c → Adj c d → inB w h d → m d = 0 → Reach w h m d

/-- Invariant needed for the value/frame claims, preserved by every loop
iteration with no side conditions: the pixel buffer is the stroke mask
overwritten with 128 exactly on the visited cells, visited cells are
in-bounds background cells, and no cell is visited twice. -/
structure InvCore (w h : Nat) (m : Cell → Nat) (s : FloodState) : Prop where
  pix : ∀ c, s.pixels c = if c ∈ s.visited then 128 else m c
  vis_inB : ∀ c ∈ s.visited, inB w h c
  vis_bg : ∀ c ∈ s.visited, m c = 0
  nodup : s.visited.Nodup

/-- Full BFS invariant: additionally, every visited cell is border-reachable,
every queued cell is a border seed or a neighbour of a visited cell, every
background border cell is visited or queued, and every in-bounds background
neighbour of a visited cell is visited or queued. -/
structure Inv (w h : Nat) (m : Cell → Nat) (s : FloodState)
    extends InvCore w h m s : Prop where
  vis_reach : ∀ c ∈ s.visited, Reach w h m c
  queue_src : ∀ c ∈ s.queue,
    (inB w h c ∧ onBorder w h c ∧ m c = 0) ∨ ∃ d ∈ s.visited, Adj d c
  border_cov : ∀ c, inB w h c → onBorder w h c → m c = 0 →
    c ∈ s.visited ∨ c ∈ s.queue
  closed : ∀ d ∈ s.visited, ∀ e, Adj d e → inB w h e → m e = 0 →
    e ∈ s.visited ∨ e ∈ s.queue

/-- A 4-connected chain of in-bounds background cells. -/
def bgPath (w h : Nat) (m : Cell → Nat) (l : List Cell) : Prop :=
  List.Chain' Adj l ∧ ∀ c ∈ l, inB w h c ∧ m c = 0

/-- There is a 4-connected all-background path from `c` to some border
cell — the spec's description of an `EXTERIOR` cell. -/
def hasBorderPath (w h : Nat) (m : Cell → Nat) (c : Cell) : Prop :=
  ∃ l : List Cell, l.head? = some c ∧
    (∃ d, l.getLast? = some d ∧ onBorder w h d) ∧ bgPath w h m l

/-- The spec's `EXTERIOR` classification of a cell of the thresholded
raster: background reachable from the border. -/
def Exterior (w h : Nat) (img : Cell → Nat) (cutoff : Nat) (c : Cell) : Prop :=
  Reach w h (stroke_mask img cutoff) c

/-- The spec's `INTERIOR` classification: an in-bounds background cell
with no 4-connected all-background route to the border. -/
def Interior (w h : Nat) (img : Cell → Nat) (cutoff : Nat) (c : Cell) : Prop :=
  inB w h c ∧ stroke_mask img cutoff c = 0 ∧
    ¬ Reach w h (stroke_mask img cutoff) c

/-- The four pixel buffers that exist during one `create_tray_icon` call:
the rendered `canvas`, the thresholded `stroke_mask` produced by `point`,
the `fill_canvas` copy that the loop mutates, and the `alpha_mask`
produced by the final `point`.  Each `point` and `copy` allocates a fresh
buffer, so the record tracks them separately. -/
structure TrayBuffers where
  canvas : Cell → Nat
  stroke : Cell → Nat
  fill : Cell → Nat
  alpha : Cell → Nat

/-- The buffer pipeline of `create_tray_icon` lines 121-166: threshold the
canvas, copy the result, flood-fill the copy in place, and derive the
alpha mask from the filled copy. -/
def run_pipeline (w h : Nat) (img : Cell → Nat) (cutoff : Nat) : TrayBuffers :=
  { canvas := img
    stroke := stroke_mask img cutoff
    fill := (flood_fill w h img cutoff).pixels
    alpha := fun c => if (flood_fill w h img cutoff).pixels c = 128 then 0 else 255 }

/-- Modelled from the spec: section 7 requires a boundary validation that
rejects a zero-sized raster with an `InvalidInput` signal before the core
runs; no such validation exists anywhere in the source script. -/
def extract_silhouette_checked (w h : Nat) (img : Cell → Nat) (cutoff : Nat) :
    Except String (Cell → Nat) :=
  if w = 0 ∨ h = 0 then Except.error "InvalidInput"
  else Except.ok (alpha_mask w h img cutoff)

/-- The border coordinates that the seeding loops (lines 137-146) read
from the pixel buffer, in read order: `(i, 0)` and `(i, h-1)` for each
column, then `(0, j)` and `(w-1, j)` for each row. -/
def seeding_reads (w h : Nat) : List Cell :=
  ((List.range w).flatMap fun i =>
    [((i : Int), (0 : Int)), ((i : Int), (h : Int) - 1)]) ++
  ((List.range h).flatMap fun j =>
    [((0 : Int), (j : Int)), ((w : Int) - 1, (j : Int))])

/-- Modelled from the spec: the raster capability ("all coordinates
addressed are within [0,W)×[0,H)") makes a pixel read outside the raster
fail — in the Pillow implementation behind the script, an `IndexError`
from `pixels[i, 0]` / `pixels[0, j]`.  The source has no handler for it,
so `create_tray_icon` only produces a mask when every read performed by
its seeding loops is in bounds; otherwise the call fails with that
`IndexError` (which is a crash, not the spec's `InvalidInput` signal). -/
def create_tray_icon_total (w h : Nat) (img : Cell → Nat) (cutoff : Nat) :
    Except String (Cell → Nat) :=
  if ∀ c ∈ seeding_reads w h, inB w h c then
    Except.ok (alpha_mask w h img cutoff)
  else Except.error "IndexError"

/-! ## Termination of the loop -/

theorem mem_boundCells {w h : Nat} {c : Cell} : c ∈ boundCells w h ↔ inB w h c := by
  cases c with
  | mk x y =>
    simp only [boundCells, Finset.mem_product, Finset.mem_Ico, inB]
    tauto

theorem boundCells_card (w h : Nat) : (boundCells w h).card = w * h := by
  have h1 : (Finset.Ico (0 : Int) (w : Int)).card = w := by
    rw [Int.card_Ico]; omega
  have h2 : (Finset.Ico (0 : Int) (h : Int)).card = h := by
    rw [Int.card_Ico]; omega
  rw [boundCells, Finset.card_product, h1, h2]

theorem unvisited_cons {w h : Nat} {s : FloodState} {c : Cell}
    (hcB : inB w h c) (hcv : c ∉ s.visited) :
    ((boundCells w h).filter (fun d => d ∉ c :: s.visited)).card + 1
      = ((boundCells w h).filter (fun d => d ∉ s.visited)).card := by
  have hc : c ∈ (boundCells w h).filter (fun d => d ∉ s.visited) :=
    Finset.mem_filter.mpr ⟨mem_boundCells.mpr hcB, hcv⟩
  have h1 : (boundCells w h).filter (fun d => d ∉ c :: s.visited)
      = ((boundCells w h).filter (fun d => d ∉ s.visited)).erase c := by
    ext d
    simp only [Finset.mem_filter, Finset.mem_erase, List.mem_cons, not_or]
    tauto
  rw [h1, Finset.card_erase_of_mem hc]
  have hpos : 0 < ((boundCells w h).filter (fun d => d ∉ s.visited)).card :=
    Finset.card_pos.mpr ⟨c, hc⟩
  omega

/-- With fuel at least `|queue| + 4·(number of unvisited in-bounds cells)`,
the loop drains its queue: the Python `while queue:` loop terminates. -/
theorem bfs_queue_eq_nil (w h : Nat) :
    ∀ n s, s.queue.length + 4 * unvisited w h s ≤ n → (bfs w h n s).queue = [] := by
  intro n
  induction n with
  | zero =>
    intro s hs
    have hq : s.queue = [] := List.length_eq_zero.mp (by omega)
    rw [bfs_zero]; exact hq
  | succ n ih =>
    intro s hs
    cases hq : s.queue with
    | nil => rw [bfs_succ_nil w h n s hq]; exact hq
    | cons c rest =>
      rw [bfs_succ_cons w h n s c rest hq]
      have hlen : s.queue.length = rest.length + 1 := by rw [hq]; simp
      unfold step
      split_ifs with h1 h2 h3
      · refine ih _ ?_
        have : unvisited w h { s with queue := rest } = unvisited w h s := rfl
        simp only [this]
        omega
      · refine ih _ ?_
        have : unvisited w h { s with queue := rest } = unvisited w h s := rfl
        simp only [this]
        omega
      · refine ih _ ?_
        have : unvisited w h { s with queue := rest } = unvisited w h s := rfl
        simp only [this]
        omega
      · refine ih _ ?_
        have hcB : inB w h c := by
          push_neg at h2
          exact ⟨h2.1, h2.2.1, h2.2.2.1, h2.2.2.2⟩
        have hcount := unvisited_cons hcB h1
        have hnb : (nbrs c).length = 4 := rfl
        simp only [unvisited] at hcount hs ⊢
        simp only [List.length_append, hnb]
        omega

/-! ## Reachability: the specification of the exterior -/

theorem reach_bg {w h : Nat} {m : Cell → Nat} {c : Cell} (hr : Reach w h m c) :
    inB w h c ∧ m c = 0 := by
  cases hr with
  | border hi hb h0 => exact ⟨hi, h0⟩
  | step hr hadj hi h0 => exact ⟨hi, h0⟩

theorem adj_symm {c d : Cell} (h : Adj c d) : Adj d c := by
  rcases c with ⟨x, y⟩
  rcases d with ⟨u, v⟩
  simp only [Adj, nbrs, List.mem_cons, List.not_mem_nil, or_false, Prod.mk.injEq] at h ⊢
  omega

/-- Reachability only shrinks when background cells are converted to
strokes: if every background cell of `m'` is a background cell of `m`,
every `m'`-reachable cell is `m`-reachable. -/
theorem reach_mono {w h : Nat} {m m' : Cell → Nat} (hmm : ∀ c, m' c = 0 → m c = 0)
    {c : Cell} (hr : Reach w h m' c) : Reach w h m c := by
  induction hr with
  | border hi hb h0 => exact Reach.border hi hb (hmm _ h0)
  | step hr hadj hi h0 ih => exact Reach.step ih hadj hi (hmm _ h0)

/-! ## Loop invariants -/

theorem invCore_init (w h : Nat) (m : Cell → Nat) (q : List Cell) :
    InvCore w h m { pixels := m, visited := [], queue := q } := by
  refine ⟨fun c => by simp, ?_, ?_, List.nodup_nil⟩ <;>
    exact fun c hc => absurd hc (List.not_mem_nil c)

theorem inv_init (w h : Nat) (m : Cell → Nat) (q : List Cell)
    (h1 : ∀ c ∈ q, inB w h c ∧ onBorder w h c ∧ m c = 0)
    (h2 : ∀ c, inB w h c → onBorder w h c → m c = 0 → c ∈ q) :
    Inv w h m { pixels := m, visited := [], queue := q } := by
  refine ⟨invCore_init w h m q, ?_, ?_, ?_, ?_⟩
  · exact fun c hc => absurd hc (List.not_mem_nil c)
  · exact fun c hc => Or.inl (h1 c hc)
  · exact fun c hi hb h0 => Or.inr (h2 c hi hb h0)
  · exact fun d hd => absurd hd (List.not_mem_nil d)

theorem invCore_step {w h : Nat} {m : Cell → Nat} {s : FloodState} (c : Cell)
    (rest : List Cell) (hs : InvCore w h m s) :
    InvCore w h m (step w h c rest s) := by
  unfold step
  split_ifs with h1 h2 h3
  · exact ⟨hs.pix, hs.vis_inB, hs.vis_bg, hs.nodup⟩
  · exact ⟨hs.pix, hs.vis_inB, hs.vis_bg, hs.nodup⟩
  · exact ⟨hs.pix, hs.vis_inB, hs.vis_bg, hs.nodup⟩
  · have hcB : inB w h c := by push_neg at h2; exact ⟨h2.1, h2.2.1, h2.2.2.1, h2.2.2.2⟩
    have hpc : s.pixels c = 0 := by push_neg at h3; exact h3
    have hc0 : m c = 0 := by
      have := hs.pix c
      rw [if_neg h1] at this
      omega
    refine ⟨?_, ?_, ?_, ?_⟩
    · intro d
      by_cases hdc : d = c
      · subst hdc
        simp [List.mem_cons]
      · simp only [List.mem_cons, hdc, false_or, if_neg hdc]
        exact hs.pix d
    · intro d hd
      rcases List.mem_cons.mp hd with h | h
      · subst h; exact hcB
      · exact hs.vis_inB d h
    · intro d hd
      rcases List.mem_cons.mp hd with h | h
      · subst h; exact hc0
      · exact hs.vis_bg d h
    · exact List.nodup_cons.mpr ⟨h1, hs.nodup⟩

theorem inv_step {w h : Nat} {m : Cell → Nat} {s : FloodState} {c : Cell}
    {rest : List Cell} (hq : s.queue = c :: rest) (hs : Inv w h m s) :
    Inv w h m (step w h c rest s) := by
  have hcore := invCore_step c rest hs.toInvCore
  unfold step at hcore ⊢
  split_ifs at hcore ⊢ with h1 h2 h3
  · -- already visited: drop the popped cell
    refine ⟨hcore, hs.vis_reach, ?_, ?_, ?_⟩
    · exact fun d hd => hs.queue_src d (by rw [hq]; exact List.mem_cons_of_mem c hd)
    · intro d hi hb h0
      rcases hs.border_cov d hi hb h0 with hv | hqu
      · exact Or.inl hv
      · rw [hq] at hqu
        rcases List.mem_cons.mp hqu with he | he
        · subst he; exact Or.inl h1
        · exact Or.inr he
    · intro d hd e hadj hi h0
      rcases hs.closed d hd e hadj hi h0 with hv | hqu
      · exact Or.inl hv
      · rw [hq] at hqu
        rcases List.mem_cons.mp hqu with he | he
        · subst he; exact Or.inl h1
        · exact Or.inr he
  · -- out of bounds: drop the popped cell
    refine ⟨hcore, hs.vis_reach, ?_, ?_, ?_⟩
    · exact fun d hd => hs.queue_src d (by rw [hq]; exact List.mem_cons_of_mem c hd)
    · intro d hi hb h0
      rcases hs.border_cov d hi hb h0 with hv | hqu
      · exact Or.inl hv
      · rw [hq] at hqu
        rcases List.mem_cons.mp hqu with he | he
        · exfalso; subst he; obtain ⟨g1, g2, g3, g4⟩ := hi; omega
        · exact Or.inr he
    · intro d hd e hadj hi h0
      rcases hs.closed d hd e hadj hi h0 with hv | hqu
      · exact Or.inl hv
      · rw [hq] at hqu
        rcases List.mem_cons.mp hqu with he | he
        · exfalso; subst he; obtain ⟨g1, g2, g3, g4⟩ := hi; omega
        · exact Or.inr he
  · -- non-zero pixel (stroke): drop the popped cell
    have hmc : m c ≠ 0 := by
      have := hs.pix c
      rw [if_neg h1] at this
      omega
    refine ⟨hcore, hs.vis_reach, ?_, ?_, ?_⟩
    · exact fun d hd => hs.queue_src d (by rw [hq]; exact List.mem_cons_of_mem c hd)
    · intro d hi hb h0
      rcases hs.border_cov d hi hb h0 with hv | hqu
      · exact Or.inl hv
      · rw [hq] at hqu
        rcases List.mem_cons.mp hqu with he | he
        · exact absurd (he ▸ h0) hmc
        · exact Or.inr he
    · intro d hd e hadj hi h0
      rcases hs.closed d hd e hadj hi h0 with hv | hqu
      · exact Or.inl hv
      · rw [hq] at hqu
        rcases List.mem_cons.mp hqu with he | he
        · exact absurd (he ▸ h0) hmc
        · exact Or.inr he
  · -- visit: mark the cell and push its neighbours
    have hcB : inB w h c := by push_neg at h2; exact ⟨h2.1, h2.2.1, h2.2.2.1, h2.2.2.2⟩
    have hc0 : m c = 0 := by
      have := hs.pix c
      rw [if_neg h1] at this
      push_neg at h3
      omega
    have hcq : c ∈ s.queue := by rw [hq]; exact List.mem_cons_self c rest
    have hcreach : Reach w h m c := by
      rcases hs.queue_src c hcq with ⟨hi, hb, h0⟩ | ⟨d, hd, hadj⟩
      · exact Reach.border hi hb h0
      · exact Reach.step (hs.vis_reach d hd) hadj hcB hc0
    refine ⟨hcore, ?_, ?_, ?_, ?_⟩
    · intro d hd
      rcases List.mem_cons.mp hd with he | he
      · subst he; exact hcreach
      · exact hs.vis_reach d he
    · intro d hd
      rcases List.mem_append.mp hd with he | he
      · rcases hs.queue_src d (by rw [hq]; exact List.mem_cons_of_mem c he) with hseed | ⟨e, hev, hadj⟩
        · exact Or.inl hseed
        · exact Or.inr ⟨e, List.mem_cons_of_mem c hev, hadj⟩
      · exact Or.inr ⟨c, List.mem_cons_self c s.visited, he⟩
    · intro d hi hb h0
      rcases hs.border_cov d hi hb h0 with hv | hqu
      · exact Or.inl (List.mem_cons_of_mem c hv)
      · rw [hq] at hqu
        rcases List.mem_cons.mp hqu with he | he
        · exact Or.inl (by rw [he]; exact List.mem_cons_self c s.visited)
        · exact Or.inr (List.mem_append_left _ he)
    · intro d hd e hadj hi h0
      rcases List.mem_cons.mp hd with hdc | hdv
      · subst hdc
        exact Or.inr (List.mem_append_right rest hadj)
      · rcases hs.closed d hdv e hadj hi h0 with hv | hqu
        · exact Or.inl (List.mem_cons_of_mem c hv)
        · rw [hq] at hqu
          rcases List.mem_cons.mp hqu with he | he
          · exact Or.inl (by rw [he]; exact List.mem_cons_self c s.visited)
          · exact Or.inr (List.mem_append_left _ he)

/-- Any predicate preserved by one loop iteration is preserved by the
whole loop. -/
theorem bfs_pres (w h : Nat) (P : FloodState → Prop)
    (hstep : ∀ s c rest, s.queue = c :: rest → P s → P (step w h c rest s)) :
    ∀ n s, P s → P (bfs w h n s) := by
  intro n
  induction n with
  | zero => intro s hp; rw [bfs_zero]; exact hp
  | succ n ih =>
    intro s hp
    cases hq : s.queue with
    | nil => rw [bfs_succ_nil w h n s hq]; exact hp
    | cons c rest =>
      rw [bfs_succ_cons w h n s c rest hq]
      exact ih _ (hstep s c rest hq hp)

/-- Once the queue is empty, the visited set is exactly the set of
border-reachable background cells. -/
theorem inv_final_iff {w h : Nat} {m : Cell → Nat} {s : FloodState}
    (hs : Inv w h m s) (hq : s.queue = []) (c : Cell) :
    c ∈ s.visited ↔ Reach w h m c := by
  constructor
  · exact hs.vis_reach c
  · intro hr
    induction hr with
    | border hi hb h0 =>
      rcases hs.border_cov _ hi hb h0 with hv | hqu
      · exact hv
      · rw [hq] at hqu; exact absurd hqu (List.not_mem_nil _)
    | step hr hadj hi h0 ih =>
      rcases hs.closed _ ih _ hadj hi h0 with hv | hqu
      · exact hv
      · rw [hq] at hqu; exact absurd hqu (List.not_mem_nil _)

/-! ## The seed queue covers exactly the background border cells -/

theorem mem_ite_singleton {p : Prop} [Decidable p] {a c : Cell} :
    c ∈ (if p then [a] else ([] : List Cell)) ↔ p ∧ c = a := by
  split_ifs with hp
  · simp [hp]
  · simp [hp]

theorem seeds_sound {pix : Cell → Nat} {w h : Nat} (hw : 0 < w) (hh : 0 < h) :
    ∀ c ∈ seeds pix w h, inB w h c ∧ onBorder w h c ∧ pix c = 0 := by
  intro c hc
  simp only [seeds, List.mem_append, List.mem_flatMap, List.mem_range,
    mem_ite_singleton] at hc
  rcases hc with ⟨i, hi, ⟨hp, hceq⟩ | ⟨hp, hceq⟩⟩ | ⟨j, hj, ⟨hp, hceq⟩ | ⟨hp, hceq⟩⟩
  · subst hceq
    exact ⟨⟨by omega, by omega, by omega, by omega⟩, Or.inl rfl, hp⟩
  · subst hceq
    exact ⟨⟨by omega, by omega, by omega, by omega⟩, Or.inr (Or.inl rfl), hp⟩
  · subst hceq
    exact ⟨⟨by omega, by omega, by omega, by omega⟩, Or.inr (Or.inr (Or.inl rfl)), hp⟩
  · subst hceq
    exact ⟨⟨by omega, by omega, by omega, by omega⟩, Or.inr (Or.inr (Or.inr rfl)), hp⟩

theorem seeds_complete {pix : Cell → Nat} {w h : Nat} :
    ∀ c, inB w h c → onBorder w h c → pix c = 0 → c ∈ seeds pix w h := by
  intro c hi hb h0
  obtain ⟨x, y⟩ := c
  obtain ⟨hx0, hxw, hy0, hyh⟩ := hi
  simp only [seeds, List.mem_append, List.mem_flatMap, List.mem_range,
    mem_ite_singleton]
  rcases hb with hb | hb | hb | hb
  · left
    refine ⟨x.toNat, by omega, Or.inl ⟨?_, ?_⟩⟩
    · have e : (((x.toNat : Nat) : Int), (0 : Int)) = ((x, y) : Cell) := by
        simp only [Prod.mk.injEq]
        constructor <;> omega
      rw [e]; exact h0
    · simp only [Prod.mk.injEq]
      constructor <;> omega
  · left
    refine ⟨x.toNat, by omega, Or.inr ⟨?_, ?_⟩⟩
    · have e : (((x.toNat : Nat) : Int), (h : Int) - 1) = ((x, y) : Cell) := by
        simp only [Prod.mk.injEq]
        constructor <;> omega
      rw [e]; exact h0
    · simp only [Prod.mk.injEq]
      constructor <;> omega
  · right
    refine ⟨y.toNat, by omega, Or.inl ⟨?_, ?_⟩⟩
    · have e : ((0 : Int), ((y.toNat : Nat) : Int)) = ((x, y) : Cell) := by
        simp only [Prod.mk.injEq]
        constructor <;> omega
      rw [e]; exact h0
    · simp only [Prod.mk.injEq]
      constructor <;> omega
  · right
    refine ⟨y.toNat, by omega, Or.inr ⟨?_, ?_⟩⟩
    · have e : ((w : Int) - 1, ((y.toNat : Nat) : Int)) = ((x, y) : Cell) := by
        simp only [Prod.mk.injEq]
        constructor <;> omega
      rw [e]; exact h0
    · simp only [Prod.mk.injEq]
      constructor <;> omega

/-! ## Characterisation of the final flood-fill state -/

theorem invCore_flood_fill_aux (w h : Nat) (img : Cell → Nat) (cutoff : Nat) (n : Nat) :
    InvCore w h (stroke_mask img cutoff) (bfs w h n (init_state w h img cutoff)) :=
  bfs_pres w h (InvCore w h (stroke_mask img cutoff))
    (fun _ c rest _ hs => invCore_step c rest hs) n _
    (invCore_init w h (stroke_mask img cutoff) (seeds (stroke_mask img cutoff) w h))

theorem inv_flood_fill_aux (w h : Nat) (img : Cell → Nat) (cutoff : Nat)
    (hw : 0 < w) (hh : 0 < h) (n : Nat) :
    Inv w h (stroke_mask img cutoff) (bfs w h n (init_state w h img cutoff)) :=
  bfs_pres w h (Inv w h (stroke_mask img cutoff))
    (fun _ _ _ hq hs => inv_step hq hs) n _
    (inv_init w h (stroke_mask img cutoff) (seeds (stroke_mask img cutoff) w h)
      (seeds_sound hw hh) (seeds_complete))

theorem flood_fill_core (w h : Nat) (img : Cell → Nat) (cutoff : Nat) :
    InvCore w h (stroke_mask img cutoff) (flood_fill w h img cutoff) :=
  invCore_flood_fill_aux w h img cutoff _

theorem flood_fill_queue_nil (w h : Nat) (img : Cell → Nat) (cutoff : Nat) :
    (flood_fill w h img cutoff).queue = [] := by
  apply bfs_queue_eq_nil
  have h1 : unvisited w h (init_state w h img cutoff) = w * h := by
    unfold unvisited
    rw [Finset.filter_true_of_mem, boundCells_card]
    exact fun x _ => List.not_mem_nil x
  rw [h1]

theorem flood_fill_visited_iff (w h : Nat) (img : Cell → Nat) (cutoff : Nat)
    (hw : 0 < w) (hh : 0 < h) (c : Cell) :
    c ∈ (flood_fill w h img cutoff).visited ↔ Reach w h (stroke_mask img cutoff) c :=
  inv_final_iff (inv_flood_fill_aux w h img cutoff hw hh _)
    (flood_fill_queue_nil w h img cutoff) c

theorem stroke_mask_cases (img : Cell → Nat) (cutoff : Nat) (c : Cell) :
    stroke_mask img cutoff c = 0 ∨ stroke_mask img cutoff c = 255 := by
  unfold stroke_mask
  split_ifs <;> simp

theorem flood_fill_pixels (w h : Nat) (img : Cell → Nat) (cutoff : Nat) (c : Cell) :
    (flood_fill w h img cutoff).pixels c
      = if c ∈ (flood_fill w h img cutoff).visited then 128
        else stroke_mask img cutoff c :=
  (flood_fill_core w h img cutoff).pix c

theorem flood_fill_pixels_128 (w h : Nat) (img : Cell → Nat) (cutoff : Nat) (c : Cell) :
    (flood_fill w h img cutoff).pixels c = 128
      ↔ c ∈ (flood_fill w h img cutoff).visited := by
  rw [flood_fill_pixels]
  by_cases hv : c ∈ (flood_fill w h img cutoff).visited
  · simp [hv]
  · simp only [if_neg hv]
    constructor
    · intro h128
      rcases stroke_mask_cases img cutoff c with hm | hm <;> omega
    · intro hv2
      exact absurd hv2 hv

theorem alpha_mask_eq_zero_iff (w h : Nat) (img : Cell → Nat) (cutoff : Nat)
    (hw : 0 < w) (hh : 0 < h) (c : Cell) :
    alpha_mask w h img cutoff c = 0 ↔ Reach w h (stroke_mask img cutoff) c := by
  constructor
  · intro h0
    have hp : (flood_fill w h img cutoff).pixels c = 128 := by
      unfold alpha_mask at h0
      by_contra hne
      rw [if_neg hne] at h0
      omega
    exact (flood_fill_visited_iff w h img cutoff hw hh c).mp
      ((flood_fill_pixels_128 w h img cutoff c).mp hp)
  · intro hr
    have hv := (flood_fill_visited_iff w h img cutoff hw hh c).mpr hr
    have hp := (flood_fill_pixels_128 w h img cutoff c).mpr hv
    unfold alpha_mask
    rw [if_pos hp]

theorem alpha_mask_values (w h : Nat) (img : Cell → Nat) (cutoff : Nat) (c : Cell) :
    alpha_mask w h img cutoff c = 0 ∨ alpha_mask w h img cutoff c = 255 := by
  unfold alpha_mask
  split_ifs <;> simp

/-! ## Reachability coincides with explicit border paths -/

theorem reach_hasBorderPath {w h : Nat} {m : Cell → Nat} {c : Cell}
    (hr : Reach w h m c) : hasBorderPath w h m c := by
  induction hr with
  | border hi hb h0 =>
    refine ⟨[_], rfl, ⟨_, rfl, hb⟩, List.chain'_singleton _, ?_⟩
    intro x hx
    rw [List.mem_singleton] at hx
    subst hx
    exact ⟨hi, h0⟩
  | @step c1 d1 hr hadj hiD h0D ih =>
    obtain ⟨l, hhead, ⟨e, hlast, hbe⟩, hchain, hmem⟩ := ih
    cases l with
    | nil => simp at hhead
    | cons b l' =>
      have hbc : b = c1 := Option.some.inj hhead
      refine ⟨d1 :: b :: l', rfl, ⟨e, ?_, hbe⟩, ?_, ?_⟩
      · rw [List.getLast?_cons_cons]
        exact hlast
      · refine List.chain'_cons.mpr ⟨?_, hchain⟩
        rw [hbc]
        exact adj_symm hadj
      · intro x hx
        rcases List.mem_cons.mp hx with hxd | hxl
        · subst hxd
          exact ⟨hiD, h0D⟩
        · exact hmem x hxl

theorem reach_of_bgPath {w h : Nat} {m : Cell → Nat} :
    ∀ l : List Cell, List.Chain' Adj l → (∀ x ∈ l, inB w h x ∧ m x = 0) →
      ∀ c e : Cell, l.head? = some c → l.getLast? = some e → onBorder w h e →
        Reach w h m c := by
  intro l
  induction l with
  | nil =>
    intro _ _ c e hc _ _
    simp at hc
  | cons a l ih =>
    intro hchain hmem c e hc hlast hbe
    have hac : a = c := Option.some.inj hc
    subst hac
    cases l with
    | nil =>
      have hae : a = e := Option.some.inj hlast
      subst hae
      obtain ⟨hi, h0⟩ := hmem a (List.mem_singleton_self a)
      exact Reach.border hi hbe h0
    | cons b l' =>
      have hlast' : (b :: l').getLast? = some e := by
        rw [List.getLast?_cons_cons] at hlast
        exact hlast
      have hrb := ih (List.chain'_cons.mp hchain).2
        (fun x hx => hmem x (List.mem_cons_of_mem a hx)) b e rfl hlast' hbe
      obtain ⟨hi, h0⟩ := hmem a (List.mem_cons_self a (b :: l'))
      exact Reach.step hrb (adj_symm (List.chain'_cons.mp hchain).1) hi h0

theorem reach_iff_path (w h : Nat) (m : Cell → Nat) (c : Cell) :
    Reach w h m c ↔ hasBorderPath w h m c := by
  constructor
  · exact reach_hasBorderPath
  · rintro ⟨l, hhead, ⟨e, hlast, hbe⟩, hchain, hmem⟩
    exact reach_of_bgPath l hchain hmem c e hhead hlast hbe

/-! ## In an all-background raster every cell reaches the border -/

theorem reach_of_all_bg_aux {w h : Nat} {m : Cell → Nat}
    (hbg : ∀ c, inB w h c → m c = 0) :
    ∀ n : Nat, ∀ y : Int, n < w → 0 ≤ y → y < (h : Int) →
      Reach w h m ((n : Int), y) := by
  intro n
  induction n with
  | zero =>
    intro y hnw hy0 hyh
    have hi : inB w h (((0 : Nat) : Int), y) := ⟨by omega, by omega, hy0, hyh⟩
    exact Reach.border hi (Or.inr (Or.inr (Or.inl (by simp)))) (hbg _ hi)
  | succ n ih =>
    intro y hnw hy0 hyh
    have hi : inB w h (((n + 1 : Nat) : Int), y) := ⟨by omega, by omega, hy0, hyh⟩
    have hadj : Adj ((n : Int), y) (((n + 1 : Nat) : Int), y) := by
      simp only [Adj, nbrs, List.mem_cons, List.not_mem_nil, or_false, Prod.mk.injEq]
      left
      constructor
      · omega
      · trivial
    exact Reach.step (ih y (by omega) hy0 hyh) hadj hi (hbg _ hi)

theorem reach_of_all_bg {w h : Nat} {m : Cell → Nat}
    (hbg : ∀ c, inB w h c → m c = 0) (c : Cell) (hc : inB w h c) :
    Reach w h m c := by
  obtain ⟨x, y⟩ := c
  obtain ⟨hx0, hxw, hy0, hyh⟩ := hc
  have hx : ((x.toNat : Nat) : Int) = x := Int.toNat_of_nonneg hx0
  have hr := reach_of_all_bg_aux hbg x.toNat y (by omega) hy0 hyh
  rw [hx] at hr
  exact hr

/-- The seeding loops' pixel reads are all in bounds exactly for a
non-empty raster or the 0×0 raster; with exactly one zero dimension the
very first read of one loop is out of range. -/
theorem seeding_reads_inB_iff (w h : Nat) :
    (∀ c ∈ seeding_reads w h, inB w h c) ↔ (w = 0 ∧ h = 0) ∨ (0 < w ∧ 0 < h) := by
  constructor
  · intro hall
    rcases Nat.eq_zero_or_pos w with hw | hw
    · rcases Nat.eq_zero_or_pos h with hh | hh
      · exact Or.inl ⟨hw, hh⟩
      · exfalso
        have hmem : ((0 : Int), ((0 : Nat) : Int)) ∈ seeding_reads w h := by
          simp only [seeding_reads, List.mem_append, List.mem_flatMap, List.mem_range,
            List.mem_cons, List.not_mem_nil, or_false]
          right
          exact ⟨0, hh, Or.inl rfl⟩
        have hin := hall _ hmem
        obtain ⟨h1, h2, h3, h4⟩ := hin
        omega
    · rcases Nat.eq_zero_or_pos h with hh | hh
      · exfalso
        have hmem : (((0 : Nat) : Int), (0 : Int)) ∈ seeding_reads w h := by
          simp only [seeding_reads, List.mem_append, List.mem_flatMap, List.mem_range,
            List.mem_cons, List.not_mem_nil, or_false]
          left
          exact ⟨0, hw, Or.inl rfl⟩
        have hin := hall _ hmem
        obtain ⟨h1, h2, h3, h4⟩ := hin
        omega
      · exact Or.inr ⟨hw, hh⟩
  · intro hcase c hc
    simp only [seeding_reads, List.mem_append, List.mem_flatMap, List.mem_range,
      List.mem_cons, List.not_mem_nil, or_false] at hc
    rcases hcase with ⟨hw, hh⟩ | ⟨hw, hh⟩
    · exfalso
      rcases hc with ⟨i, hi, _⟩ | ⟨j, hj, _⟩ <;> omega
    · rcases hc with ⟨i, hi, hic | hic⟩ | ⟨j, hj, hjc | hjc⟩
      · subst hic
        exact ⟨by omega, by omega, by omega, by omega⟩
      · subst hic
        exact ⟨by omega, by omega, by omega, by omega⟩
      · subst hjc
        exact ⟨by omega, by omega, by omega, by omega⟩
      · subst hjc
        exact ⟨by omega, by omega, by omega, by omega⟩

/-! ## Claims -/

/-- Claim C1: for every non-empty thresholded raster, after the
border-seeded flood fill completes, a cell is marked EXTERIOR (pixel
value 128) if and only if there is a 4-connected path of background cells
from it to some border cell that does not cross a stroke cell; hence any
cell opaque in the output alpha mask that is not a stroke in the input
has no such path. -/
theorem exterior_iff_border_path (w h : Nat) (img : Cell → Nat) (cutoff : Nat)
    (hw : 0 < w) (hh : 0 < h) :
    (∀ c : Cell, (flood_fill w h img cutoff).pixels c = 128 ↔
        hasBorderPath w h (stroke_mask img cutoff) c)
    ∧ (∀ c : Cell, alpha_mask w h img cutoff c = 255 →
        stroke_mask img cutoff c = 0 →
        ¬ hasBorderPath w h (stroke_mask img cutoff) c) := by
  have key : ∀ c : Cell, (flood_fill w h img cutoff).pixels c = 128 ↔
      Reach w h (stroke_mask img cutoff) c := fun c =>
    (flood_fill_pixels_128 w h img cutoff c).trans
      (flood_fill_visited_iff w h img cutoff hw hh c)
  refine ⟨fun c => (key c).trans (reach_iff_path w h (stroke_mask img cutoff) c), ?_⟩
  intro c hop hbg hpath
  have hr := (reach_iff_path w h (stroke_mask img cutoff) c).mpr hpath
  have h0 := (alpha_mask_eq_zero_iff w h img cutoff hw hh c).mpr hr
  omega

/-- Witness for C1 at the 1×1 all-background raster. -/
theorem exterior_iff_border_path_witness :
    (flood_fill 1 1 (fun _ => 0) 30).pixels (0, 0) = 128 ↔
      hasBorderPath 1 1 (stroke_mask (fun _ => 0) 30) (0, 0) :=
  (exterior_iff_border_path 1 1 (fun _ => 0) 30 (by decide) (by decide)).1 (0, 0)

/-- Claim C2: the finalize step turns every cell still background (value 0)
after the flood fill opaque, the output is binary, and over the same
`w × h` domain it is opaque exactly on the stroke and interior cells and
transparent exactly on the exterior cells. -/
theorem finalize_alpha_spec (w h : Nat) (img : Cell → Nat) (cutoff : Nat)
    (hw : 0 < w) (hh : 0 < h) :
    ∀ c : Cell, inB w h c →
      (alpha_mask w h img cutoff c = 0 ∨ alpha_mask w h img cutoff c = 255)
      ∧ ((flood_fill w h img cutoff).pixels c = 0 →
          alpha_mask w h img cutoff c = 255)
      ∧ (alpha_mask w h img cutoff c = 255 ↔
          (stroke_mask img cutoff c = 255 ∨ Interior w h img cutoff c))
      ∧ (alpha_mask w h img cutoff c = 0 ↔ Exterior w h img cutoff c) := by
  intro c hc
  have hvals := alpha_mask_values w h img cutoff c
  have hzero := alpha_mask_eq_zero_iff w h img cutoff hw hh c
  refine ⟨hvals, ?_, ?_, hzero⟩
  · intro h0
    rcases hvals with hv | hv
    · exfalso
      have hp := (flood_fill_pixels_128 w h img cutoff c).mpr
        ((flood_fill_visited_iff w h img cutoff hw hh c).mpr (hzero.mp hv))
      omega
    · exact hv
  · constructor
    · intro h255
      have hnr : ¬ Reach w h (stroke_mask img cutoff) c := by
        intro hr
        have := hzero.mpr hr
        omega
      rcases stroke_mask_cases img cutoff c with hm | hm
      · exact Or.inr ⟨hc, hm, hnr⟩
      · exact Or.inl hm
    · intro hor
      have hnr : ¬ Reach w h (stroke_mask img cutoff) c := by
        rcases hor with hm | hint
        · intro hr
          have := (reach_bg hr).2
          omega
        · exact hint.2.2
      rcases hvals with hv | hv
      · exact absurd (hzero.mp hv) hnr
      · exact hv

/-- Witness for C2 at the 1×1 all-background raster. -/
theorem finalize_alpha_spec_witness :
    (alpha_mask 1 1 (fun _ => 0) 30 (0, 0) = 0
      ∨ alpha_mask 1 1 (fun _ => 0) 30 (0, 0) = 255)
    ∧ ((flood_fill 1 1 (fun _ => 0) 30).pixels (0, 0) = 0 →
        alpha_mask 1 1 (fun _ => 0) 30 (0, 0) = 255)
    ∧ (alpha_mask 1 1 (fun _ => 0) 30 (0, 0) = 255 ↔
        (stroke_mask (fun _ => 0) 30 (0, 0) = 255
          ∨ Interior 1 1 (fun _ => 0) 30 (0, 0)))
    ∧ (alpha_mask 1 1 (fun _ => 0) 30 (0, 0) = 0 ↔
        Exterior 1 1 (fun _ => 0) 30 (0, 0)) :=
  finalize_alpha_spec 1 1 (fun _ => 0) 30 (by decide) (by decide) (0, 0) (by decide)

/-- Claim C3: every border cell that is not a stroke after thresholding is
transparent in the output alpha mask. -/
theorem border_nonstroke_transparent (w h : Nat) (img : Cell → Nat) (cutoff : Nat)
    (c : Cell) (hc : inB w h c) (hb : onBorder w h c)
    (hs : stroke_mask img cutoff c = 0) :
    alpha_mask w h img cutoff c = 0 := by
  obtain ⟨h1, h2, h3, h4⟩ := hc
  have hw : 0 < w := by omega
  have hh : 0 < h := by omega
  exact (alpha_mask_eq_zero_iff w h img cutoff hw hh c).mpr
    (Reach.border ⟨h1, h2, h3, h4⟩ hb hs)

/-- Witness for C3 at the 1×1 all-background raster. -/
theorem border_nonstroke_transparent_witness :
    alpha_mask 1 1 (fun _ => 0) 30 (0, 0) = 0 :=
  border_nonstroke_transparent 1 1 (fun _ => 0) 30 (0, 0)
    (by decide) (by decide) (by decide)

/-- Claim C4: the extraction is deterministic — running it twice gives the
same mask, the output pixel is determined purely by the order-free
reachability relation, and any run of the loop from any seed queue that
enumerates the background border cells in any order ends with the same
pixel buffer once its queue drains. -/
theorem extraction_deterministic (w h : Nat) (img : Cell → Nat) (cutoff : Nat)
    (hw : 0 < w) (hh : 0 < h) :
    (alpha_mask w h img cutoff = alpha_mask w h img cutoff)
    ∧ (∀ c : Cell, alpha_mask w h img cutoff c = 0 ↔
        Reach w h (stroke_mask img cutoff) c)
    ∧ (∀ q : List Cell,
        (∀ c ∈ q, inB w h c ∧ onBorder w h c ∧ stroke_mask img cutoff c = 0) →
        (∀ c : Cell, inB w h c → onBorder w h c → stroke_mask img cutoff c = 0 →
          c ∈ q) →
        ∀ n : Nat,
          (bfs w h n (init_with (stroke_mask img cutoff) q)).queue = [] →
          ∀ c : Cell,
            (bfs w h n (init_with (stroke_mask img cutoff) q)).pixels c
              = (flood_fill w h img cutoff).pixels c) := by
  refine ⟨rfl, fun c => alpha_mask_eq_zero_iff w h img cutoff hw hh c, ?_⟩
  intro q hq1 hq2 n hnil c
  have hInv : Inv w h (stroke_mask img cutoff)
      (bfs w h n (init_with (stroke_mask img cutoff) q)) :=
    bfs_pres w h (Inv w h (stroke_mask img cutoff))
      (fun _ _ _ hq hs => inv_step hq hs) n _
      (inv_init w h (stroke_mask img cutoff) q hq1 hq2)
  have hiff := inv_final_iff hInv hnil c
  have hpix := hInv.pix c
  rw [flood_fill_pixels w h img cutoff c]
  by_cases hr : Reach w h (stroke_mask img cutoff) c
  · rw [hpix, if_pos (hiff.mpr hr),
      if_pos ((flood_fill_visited_iff w h img cutoff hw hh c).mpr hr)]
  · rw [hpix, if_neg (fun hv => hr (hiff.mp hv)),
      if_neg (fun hv => hr ((flood_fill_visited_iff w h img cutoff hw hh c).mp hv))]

/-- Witness for C4 at the 1×1 all-background raster. -/
theorem extraction_deterministic_witness :
    alpha_mask 1 1 (fun _ => 0) 30 (0, 0) = 0 ↔
      Reach 1 1 (stroke_mask (fun _ => 0) 30) (0, 0) :=
  (extraction_deterministic 1 1 (fun _ => 0) 30 (by decide) (by decide)).2.1 (0, 0)

/-- Claim C5: adding strokes is monotone for opacity — if every stroke of
the first thresholded raster is a stroke of the second, every cell opaque
in the first output stays opaque in the second; in particular an interior
(opaque, non-stroke) cell is never flipped transparent by extra enclosing
strokes. -/
theorem opacity_monotone (w h : Nat) (img img2 : Cell → Nat) (cutoff : Nat)
    (hw : 0 < w) (hh : 0 < h)
    (hmono : ∀ d : Cell, stroke_mask img cutoff d ≠ 0 →
      stroke_mask img2 cutoff d ≠ 0) :
    ∀ c : Cell, alpha_mask w h img cutoff c = 255 →
      alpha_mask w h img2 cutoff c = 255 := by
  intro c hop
  have hnr : ¬ Reach w h (stroke_mask img cutoff) c := by
    intro hr
    have := (alpha_mask_eq_zero_iff w h img cutoff hw hh c).mpr hr
    omega
  have hnr2 : ¬ Reach w h (stroke_mask img2 cutoff) c := by
    intro hr2
    refine hnr (reach_mono (fun d hd => ?_) hr2)
    by_contra hne
    exact hmono d hne hd
  rcases alpha_mask_values w h img2 cutoff c with hv | hv
  · exact absurd ((alpha_mask_eq_zero_iff w h img2 cutoff hw hh c).mp hv) hnr2
  · exact hv

/-- Witness for C5: in a 3×3 raster whose border ring is stroke, the
centre is interior/opaque, and it stays opaque for the same raster. -/
theorem opacity_monotone_witness :
    alpha_mask 3 3 (fun c => if c = ((1 : Int), (1 : Int)) then 0 else 255)
      30 (1, 1) = 255 :=
  opacity_monotone 3 3
    (fun c => if c = ((1 : Int), (1 : Int)) then 0 else 255)
    (fun c => if c = ((1 : Int), (1 : Int)) then 0 else 255) 30
    (by decide) (by decide) (fun d hd => hd) (1, 1) (by decide)

/-- Claim C6: when every background cell has a border path (no enclosed
region) the output equals the stroke mask pointwise on the raster, and a
fully background raster yields a fully transparent mask. -/
theorem no_enclosure_alpha_eq_stroke (w h : Nat) (img : Cell → Nat) (cutoff : Nat)
    (hw : 0 < w) (hh : 0 < h) :
    ((∀ c : Cell, inB w h c → stroke_mask img cutoff c = 0 →
        hasBorderPath w h (stroke_mask img cutoff) c) →
      ∀ c : Cell, inB w h c →
        alpha_mask w h img cutoff c = stroke_mask img cutoff c)
    ∧ ((∀ c : Cell, inB w h c → stroke_mask img cutoff c = 0) →
      ∀ c : Cell, inB w h c → alpha_mask w h img cutoff c = 0) := by
  constructor
  · intro hall c hc
    rcases stroke_mask_cases img cutoff c with hm | hm
    · rw [hm]
      exact (alpha_mask_eq_zero_iff w h img cutoff hw hh c).mpr
        ((reach_iff_path w h (stroke_mask img cutoff) c).mpr (hall c hc hm))
    · rw [hm]
      rcases alpha_mask_values w h img cutoff c with hv | hv
      · exfalso
        have hr := (alpha_mask_eq_zero_iff w h img cutoff hw hh c).mp hv
        have := (reach_bg hr).2
        omega
      · exact hv
  · intro hbg c hc
    exact (alpha_mask_eq_zero_iff w h img cutoff hw hh c).mpr
      (reach_of_all_bg hbg c hc)

/-- Witness for C6 at a 2×2 all-background raster. -/
theorem no_enclosure_alpha_eq_stroke_witness :
    alpha_mask 2 2 (fun _ => 0) 30 (1, 1) = 0 :=
  (no_enclosure_alpha_eq_stroke 2 2 (fun _ => 0) 30 (by decide) (by decide)).2
    (fun c _ => rfl) (1, 1) (by decide)

/-- Claim C7: the flood fill terminates (the work queue drains with the
supplied fuel), no cell is visited twice, and the number of visits is
bounded by `w·h`. -/
theorem flood_fill_terminates_linear (w h : Nat) (img : Cell → Nat) (cutoff : Nat) :
    (flood_fill w h img cutoff).queue = []
    ∧ (flood_fill w h img cutoff).visited.Nodup
    ∧ (flood_fill w h img cutoff).visited.length ≤ w * h := by
  have hcore := flood_fill_core w h img cutoff
  refine ⟨flood_fill_queue_nil w h img cutoff, hcore.nodup, ?_⟩
  have hsub : (flood_fill w h img cutoff).visited.toFinset ⊆ boundCells w h := by
    intro c hc
    exact mem_boundCells.mpr (hcore.vis_inB c (List.mem_toFinset.mp hc))
  have h1 : (flood_fill w h img cutoff).visited.toFinset.card
      = (flood_fill w h img cutoff).visited.length :=
    List.toFinset_card_of_nodup hcore.nodup
  have h2 := Finset.card_le_card hsub
  rw [boundCells_card] at h2
  omega

/-- Counterexample for C8: on a 0×0 raster the script performs no
validation at all — the spec-modelled boundary check would reject it with
`InvalidInput`, but the actual core runs (with an empty seed queue),
visits nothing, and produces a defined mask. -/
theorem zero_size_not_rejected :
    extract_silhouette_checked 0 0 (fun _ => 0) 30 = Except.error "InvalidInput"
    ∧ (flood_fill 0 0 (fun _ => 0) 30).queue = []
    ∧ (flood_fill 0 0 (fun _ => 0) 30).visited = []
    ∧ alpha_mask 0 0 (fun _ => 0) 30 (0, 0) = 255 :=
  ⟨rfl, rfl, rfl, rfl⟩

/-- Claim C8 as amended: the script performs no zero-size validation, so
no `InvalidInput` signal exists.  On a 0×0 raster the core itself runs —
the seeding loops read nothing, the queue stays empty — and a defined
mask is produced rather than an error.  On a raster with exactly one zero
dimension a seeding-loop pixel read is out of bounds, so the call fails
with that read's `IndexError` — a crash, still not an `InvalidInput`
rejection.  For every non-empty raster the extraction is total: every
seeding read is in bounds, no error is reported, the output is binary,
and the spec-modelled boundary check passes the input through to the very
same core result. -/
theorem extraction_no_validation_cases (img : Cell → Nat) (cutoff : Nat) :
    ((flood_fill 0 0 img cutoff).visited = []
      ∧ (flood_fill 0 0 img cutoff).queue = [])
    ∧ (∀ c : Cell, alpha_mask 0 0 img cutoff c = 255)
    ∧ create_tray_icon_total 0 0 img cutoff
        = Except.ok (alpha_mask 0 0 img cutoff)
    ∧ (∀ w h : Nat, 0 < w → 0 < h →
        create_tray_icon_total w h img cutoff
            = Except.ok (alpha_mask w h img cutoff)
        ∧ extract_silhouette_checked w h img cutoff
            = Except.ok (alpha_mask w h img cutoff)
        ∧ ∀ c : Cell,
            alpha_mask w h img cutoff c = 0 ∨ alpha_mask w h img cutoff c = 255)
    ∧ (∀ w h : Nat, (w = 0 ∧ 0 < h) ∨ (0 < w ∧ h = 0) →
        create_tray_icon_total w h img cutoff = Except.error "IndexError") := by
  have hnil : (flood_fill 0 0 img cutoff).visited = [] := rfl
  refine ⟨⟨hnil, rfl⟩, ?_, ?_, ?_, ?_⟩
  · intro c
    have hp := flood_fill_pixels 0 0 img cutoff c
    rw [hnil, if_neg (List.not_mem_nil c)] at hp
    unfold alpha_mask
    rw [hp]
    rcases stroke_mask_cases img cutoff c with hm | hm <;> rw [hm] <;> rfl
  · have hcond : ∀ c ∈ seeding_reads 0 0, inB 0 0 c :=
      (seeding_reads_inB_iff 0 0).mpr (Or.inl ⟨rfl, rfl⟩)
    unfold create_tray_icon_total
    rw [if_pos hcond]
  · intro w h hw hh
    have hcond : ∀ c ∈ seeding_reads w h, inB w h c :=
      (seeding_reads_inB_iff w h).mpr (Or.inr ⟨hw, hh⟩)
    refine ⟨?_, ?_, fun c => alpha_mask_values w h img cutoff c⟩
    · unfold create_tray_icon_total
      rw [if_pos hcond]
    · have hc2 : ¬ (w = 0 ∨ h = 0) := by omega
      unfold extract_silhouette_checked
      rw [if_neg hc2]
  · intro w h hcase
    have hnot : ¬ ∀ c ∈ seeding_reads w h, inB w h c := by
      intro hall
      rcases hcase with ⟨hw, hh⟩ | ⟨hw, hh⟩ <;>
        rcases (seeding_reads_inB_iff w h).mp hall with ⟨h1, h2⟩ | ⟨h1, h2⟩ <;> omega
    unfold create_tray_icon_total
    rw [if_neg hnot]

/-- Witness for the amended C8: a 0×1 raster makes a seeding read fail
with `IndexError`, and a 1×1 raster passes both checked models through
to the core. -/
theorem extraction_no_validation_cases_witness :
    create_tray_icon_total 0 1 (fun _ => 0) 30 = Except.error "IndexError"
    ∧ create_tray_icon_total 1 1 (fun _ => 0) 30
        = Except.ok (alpha_mask 1 1 (fun _ => 0) 30) :=
  ⟨(extraction_no_validation_cases (fun _ => 0) 30).2.2.2.2 0 1
      (Or.inl ⟨rfl, Nat.one_pos⟩),
    ((extraction_no_validation_cases (fun _ => 0) 30).2.2.2.1 1 1
      Nat.one_pos Nat.one_pos).1⟩

/-- Claim C9: frame property of the pipeline — the rendered canvas and the
thresholded stroke mask buffers are unchanged by the extraction, the flood
fill mutates only the copied buffer and only by writing 128 onto its
background cells, and the returned alpha mask is a fresh buffer computed
from the filled copy alone. -/
theorem pipeline_frame_spec (w h : Nat) (img : Cell → Nat) (cutoff : Nat) :
    (run_pipeline w h img cutoff).canvas = img
    ∧ (run_pipeline w h img cutoff).stroke = stroke_mask img cutoff
    ∧ (∀ c : Cell, (run_pipeline w h img cutoff).fill c = stroke_mask img cutoff c
        ∨ ((run_pipeline w h img cutoff).fill c = 128
            ∧ stroke_mask img cutoff c = 0))
    ∧ (∀ c : Cell, (run_pipeline w h img cutoff).alpha c
        = if (run_pipeline w h img cutoff).fill c = 128 then 0 else 255) := by
  have hcore := flood_fill_core w h img cutoff
  refine ⟨rfl, rfl, ?_, fun c => rfl⟩
  intro c
  have hp := hcore.pix c
  by_cases hv : c ∈ (flood_fill w h img cutoff).visited
  · right
    rw [if_pos hv] at hp
    exact ⟨hp, hcore.vis_bg c hv⟩
  · left
    rw [if_neg hv] at hp
    exact hp

/-- Claim C10: at every point during the fill the working buffer holds
only 0, 128 or 255; thresholding yields only 0 or 255; value 128 marks
exactly the visited (exterior) cells, is only written over background
cells, and stroke cells keep the value 255 throughout — so the finalize
test `p == 128` identifies exactly the exterior cells. -/
theorem pixel_value_invariant (w h : Nat) (img : Cell → Nat) (cutoff : Nat) :
    ∀ (n : Nat) (c : Cell),
      ((bfs w h n (init_state w h img cutoff)).pixels c = 0
        ∨ (bfs w h n (init_state w h img cutoff)).pixels c = 128
        ∨ (bfs w h n (init_state w h img cutoff)).pixels c = 255)
      ∧ (stroke_mask img cutoff c = 0 ∨ stroke_mask img cutoff c = 255)
      ∧ ((bfs w h n (init_state w h img cutoff)).pixels c = 128
          ↔ c ∈ (bfs w h n (init_state w h img cutoff)).visited)
      ∧ ((bfs w h n (init_state w h img cutoff)).pixels c = 128
          → stroke_mask img cutoff c = 0)
      ∧ (stroke_mask img cutoff c = 255
          → (bfs w h n (init_state w h img cutoff)).pixels c = 255) := by
  intro n c
  have hcore := invCore_flood_fill_aux w h img cutoff n
  have hp := hcore.pix c
  have hsm := stroke_mask_cases img cutoff c
  by_cases hv : c ∈ (bfs w h n (init_state w h img cutoff)).visited
  · rw [if_pos hv] at hp
    have hbg := hcore.vis_bg c hv
    exact ⟨Or.inr (Or.inl hp), hsm,
      ⟨fun _ => hv, fun _ => hp⟩,
      fun _ => hbg,
      fun h255 => by omega⟩
  · rw [if_neg hv] at hp
    refine ⟨?_, hsm, ⟨?_, fun hvv => absurd hvv hv⟩, ?_, ?_⟩
    · rcases hsm with hm | hm
      · exact Or.inl (by omega)
      · exact Or.inr (Or.inr (by omega))
    · intro h128
      exfalso
      rcases hsm with hm | hm <;> omega
    · intro h128
      rcases hsm with hm | hm
      · exact hm
      · omega
    · intro h255
      omega
